import Mathlib

/-
Shallow embedding of the TRG-BE RAG backend:
  src/src/rag/rag.service.ts, src/src/rag/rag.controller.ts and the
  database schema in src/src/database/database.service.ts.

JS strings are modelled as lists of characters (`Str`), machine floats
(cosine-similarity scores) as rationals, row identifiers (UUIDs) as
naturals, timestamps (`created_at`) as naturals.  Postgres tables are
modelled as lists kept in insertion order; `ORDER BY ... DESC` is a
stable sort on the relevant column, matching the stable sort of JS
`Array.prototype.sort` used in `query`.
-/

abbrev Str := List Char

/-- Whitespace, as matched by the `\s` classes in the service's regexes
(restricted to the ASCII whitespace characters that can occur here). -/
def isWs (c : Char) : Bool :=
  c == ' ' || c == '\t' || c == '\n' || c == '\r'

/-- Leading-whitespace removal (left half of JS `String.prototype.trim`). -/
def trimL (s : Str) : Str := s.dropWhile isWs

/-- Trailing-whitespace removal (right half of JS `String.prototype.trim`). -/
def trimR (s : Str) : Str := (s.reverse.dropWhile isWs).reverse

/-- JS `s.trim()`. -/
def trim (s : Str) : Str := trimR (trimL s)

/-- Worker for `splitWs`; `skipping` is true while consuming the rest of a
whitespace run whose first character already produced a piece boundary. -/
def splitWsGo : Str → Bool → Str → List Str
  | cur, _, [] => [cur.reverse]
  | cur, skipping, c :: cs =>
    if isWs c then
      if skipping then splitWsGo [] true cs
      else cur.reverse :: splitWsGo [] true cs
    else splitWsGo (c :: cur) false cs

/-- JS `s.split(/\s+/)`: split on maximal whitespace runs, keeping the empty
pieces that JS produces at a leading or trailing run. -/
def splitWs (s : Str) : List Str := splitWsGo [] false s

/-- Sentence-final punctuation of the regex `/(?<=[.!?])\s+/`. -/
def isSentEnd (c : Char) : Bool := c == '.' || c == '!' || c == '?'

/-- Worker for the split on `/(?<=[.!?])\s+/`: a boundary is a whitespace run
immediately preceded by `.`, `!` or `?`; the run is consumed. -/
def splitSentGo : Str → Bool → Str → List Str
  | cur, _, [] => [cur.reverse]
  | cur, skipping, c :: cs =>
    if skipping && isWs c then splitSentGo cur true cs
    else if isSentEnd c && (match cs with | d :: _ => isWs d | [] => false) then
      (c :: cur).reverse :: splitSentGo [] true cs
    else splitSentGo (c :: cur) false cs

/-- `splitIntoSentences` (rag.service.ts:9-14): split on `/(?<=[.!?])\s+/`,
trim every piece, drop the empty ones. -/
def splitIntoSentences (text : Str) : List Str :=
  ((splitSentGo [] false text).map trim).filter (fun s => decide (0 < s.length))

/-- Loop body of `chunkText` (rag.service.ts:16-30).  `cur` is the variable
`current`; a sentence is appended to `cur` unless doing so would exceed
`target` tokens, in which case `cur` is flushed as a chunk. -/
def chunkGo (target : Nat) : Str → List Str → List Str
  | cur, [] => if 0 < (trim cur).length then [trim cur] else []
  | cur, s :: rest =>
    if target < (splitWs (cur ++ ' ' :: s)).length then
      (if 0 < (trim cur).length then [trim cur] else []) ++ chunkGo target s rest
    else
      chunkGo target (if cur.length = 0 then s else cur ++ ' ' :: s) rest

/-- `chunkText` (rag.service.ts:16-30). -/
def chunkText (text : Str) (targetTokens : Nat) : List Str :=
  chunkGo targetTokens [] (splitIntoSentences text)

/-- A row of the `dashboard_chunks` table. -/
structure Chunk where
  id : Nat
  source : Str
  content : Str
  created_at : Nat
  deriving DecidableEq

/-- A row of the result set of the semantic-search SQL in `query`
(`SELECT id, content, ... AS score`). -/
structure QRow where
  id : Nat
  content : Str
  score : ℚ
  deriving DecidableEq

/-- A row of the result set of `keywordFallbackSearch`
(`SELECT id, content`). -/
structure KRow where
  id : Nat
  content : Str
  deriving DecidableEq

/-- Stable insertion used to model JS `Array.prototype.sort` (stable) and
SQL `ORDER BY`: `a` goes in front of the first element that does not
strictly precede it, so earlier elements win ties. -/
def insertBy {α : Type} (lt : α → α → Bool) (a : α) : List α → List α
  | [] => [a]
  | b :: bs => if lt b a then b :: insertBy lt a bs else a :: b :: bs

/-- Stable insertion sort with strict-precedence test `lt`. -/
def sortBy {α : Type} (lt : α → α → Bool) : List α → List α
  | [] => []
  | x :: xs => insertBy lt x (sortBy lt xs)

/-- Strict precedence for a descending sort on the key `κ`; this is the JS
comparator `(a, b) => κ(b) - κ(a)` (negative exactly when `κ b < κ a`). -/
def keyLt {α β : Type} [LinearOrder β] (κ : α → β) (a b : α) : Bool :=
  decide (κ b < κ a)

/-- Descending stable sort by the key `κ`. -/
def sortByKeyDesc {α β : Type} [LinearOrder β] (κ : α → β) (l : List α) : List α :=
  sortBy (keyLt κ) l

/-- Step 1 of `RagService.query` (rag.service.ts:102-112): the SQL
`SELECT id, content, 1 - (embedding <=> $1::vector) AS score FROM dashboard_chunks
 ORDER BY score DESC LIMIT $2` run with parameters `[toSql(qEmbedding), 5]`.
`scoreOf` abstracts the similarity score `1 - (embedding <=> qEmbedding)` of a
stored chunk.  The LIMIT parameter is the literal `5`, not the caller's `k`. -/
def semanticSearch (scoreOf : Chunk → ℚ) (store : List Chunk) : List QRow :=
  (sortByKeyDesc QRow.score (store.map (fun c => ⟨c.id, c.content, scoreOf c⟩))).take 5

/-- The stopword set of `keywordFallbackSearch` (rag.service.ts:288-290). -/
def stopwords : List Str :=
  ["what", "is", "the", "of", "for", "a", "an", "and", "or", "to", "me",
   "data", "give", "provide", "show", "please", "about"].map String.toList

/-- Character class `[a-z0-9()\s.-]` kept by the sanitising replace. -/
def isAllowedChar (c : Char) : Bool :=
  decide (('a' ≤ c ∧ c ≤ 'z') ∨ ('0' ≤ c ∧ c ≤ '9') ∨ c = '(' ∨ c = ')' ∨
    isWs c = true ∨ c = '.' ∨ c = '-')

/-- JS `normalized.replace(/[^a-z0-9()\s.-]/g, ' ')`. -/
def sanitizeQuestion (s : Str) : Str :=
  s.map (fun c => if isAllowedChar c then c else ' ')

/-- Tokenisation in `keywordFallbackSearch` (rag.service.ts:285-296):
lower-case, sanitise, split on whitespace, drop empty pieces, stopwords and
tokens shorter than 2 characters. -/
def tokenizeQuestion (question : Str) : List Str :=
  let normalized := question.map Char.toLower
  (((splitWs (sanitizeQuestion normalized)).filter (fun t => t.length != 0)).filter
      (fun t => !(stopwords.contains t))).filter (fun t => decide (2 ≤ t.length))

/-- Substring test, `hay` contains `needle` somewhere (the SQL pattern
`'%needle%'` for a wildcard-free needle). -/
def containsSub (needle : Str) : Str → Bool
  | [] => needle.isEmpty
  | c :: t => needle.isPrefixOf (c :: t) || containsSub needle t

/-- `RagService.keywordFallbackSearch` (rag.service.ts:281-318): one
`content ILIKE '%token%'` conjunct per token (tokens contain no SQL wildcard
characters, so ILIKE is a case-insensitive substring test); with zero tokens
the WHERE clause is omitted entirely; then
`ORDER BY created_at DESC LIMIT k`. -/
def keywordFallbackSearch (question : Str) (k : Nat) (store : List Chunk) :
    List KRow :=
  let tokens := tokenizeQuestion question
  ((sortByKeyDesc Chunk.created_at
      (store.filter
        (fun c => tokens.all (fun t => containsSub t (c.content.map Char.toLower))))).take
    k).map (fun c => ⟨c.id, c.content⟩)

/-- The JS `Map<string, {id, content, score}>` of `query`, as an
insertion-ordered association list with unique keys. -/
abbrev RowMap := List (Nat × QRow)

/-- JS `Map.prototype.has`. -/
def mapHas (m : RowMap) (key : Nat) : Bool := m.any (fun p => p.1 == key)

/-- JS `Map.prototype.set`: replace in place if the key exists, else append
(insertion order is preserved). -/
def mapSet (m : RowMap) (key : Nat) (v : QRow) : RowMap :=
  if mapHas m key then m.map (fun p => if p.1 == key then (key, v) else p)
  else m ++ [(key, v)]

/-- JS `Map.prototype.values`, in insertion order. -/
def mapValues (m : RowMap) : List QRow := m.map (fun p => p.2)

/-- Step 3 of `RagService.query` (rag.service.ts:121-128): semantic rows are
written into the map first; keyword rows are added only when their id is not
present yet, with the fixed medium score `0.75`. -/
def combineRows (semanticRows : List QRow) (keywordRows : List KRow) : RowMap :=
  let m := semanticRows.foldl (fun m row => mapSet m row.id row) []
  keywordRows.foldl
    (fun m row =>
      if mapHas m row.id then m else mapSet m row.id ⟨row.id, row.content, 0.75⟩)
    m

/-- `RagService.query` (rag.service.ts:95-151), restricted to the retrieval
pipeline: semantic search, keyword fallback, merge, descending sort by score,
truncation to `k` (`finalRows`, which is also the returned `contexts`). -/
def queryContexts (scoreOf : Chunk → ℚ) (question : Str) (k : Nat)
    (store : List Chunk) : List QRow :=
  let semanticRows := semanticSearch scoreOf store
  let keywordRows := keywordFallbackSearch question k store
  (sortByKeyDesc QRow.score (mapValues (combineRows semanticRows keywordRows))).take k

/-- `RagController.query` (rag.controller.ts:10-17) forwards
`(question, Number(k), source)` to `RagService.query`, but the service's
`query` declares only `(question, k)`: the third argument is dropped at the
call, so the source filter never reaches the SQL. -/
def controllerQuery (scoreOf : Chunk → ℚ) (question : Str) (k : Nat)
    (sourceFilter : Option Str) (store : List Chunk) : List QRow :=
  queryContexts scoreOf question k store

/-- A parsed tabular row: field names with string values, in JS object key
order.  A field missing from a row is simply absent from the list. -/
abbrev RowRec := List (Str × Str)

/-- JS property access `row[h]`. -/
def getField (row : RowRec) (h : Str) : Option Str :=
  (row.find? (fun p => p.1 == h)).map (fun p => p.2)

/-- JS `String(row[h])` in the whole-table chunk of `ingestRows`
(rag.service.ts:220): `String(undefined)` is the string `"undefined"`. -/
def cellTable : Option Str → Str
  | some v => v
  | none => ("undefined").toList

/-- JS `String((r)[h] ?? '')` in the per-column chunks of `ingestRows`
(rag.service.ts:235): a missing field renders as the empty string. -/
def cellCol : Option Str → Str
  | some v => v
  | none => []

/-- The `prefix ? prefix + "\n" : ""` fragment of `ingestRows`. -/
def pfxText : Option Str → Str
  | some p => p ++ ['\n']
  | none => []

/-- One line of the whole-table chunk: `headers.map(h => h + ": " + String(row[h])).join("; ")`. -/
def tableLine (headers : List Str) (row : RowRec) : Str :=
  List.intercalate (("; ").toList)
    (headers.map (fun h => h ++ (": ").toList ++ cellTable (getField row h)))

/-- One value of a per-column chunk: `String((r)[h] ?? '')`. -/
def colCell (row : RowRec) (h : Str) : Str := cellCol (getField row h)

/-- The whole-table chunk content of `ingestRows` (rag.service.ts:218-224). -/
def tableChunk (pfx : Option Str) (headers : List Str) (rows : List RowRec) : Str :=
  pfxText pfx ++ List.intercalate ['\n'] (rows.map (tableLine headers))

/-- A per-column chunk content of `ingestRows` (rag.service.ts:234-239). -/
def colChunk (pfx : Option Str) (rows : List RowRec) (h : Str) : Str :=
  pfxText pfx ++ ("Column: ").toList ++ h ++ '\n' ::
    List.intercalate ['\n'] (rows.map (fun r => colCell r h))

/-- The chunk contents inserted by `RagService.ingestRows`
(rag.service.ts:207-242): nothing for empty input, otherwise the whole-table
chunk followed by one chunk per header of the first row. -/
def ingestRowsContents (rows : List RowRec) (pfx : Option Str) : List Str :=
  match rows with
  | [] => []
  | r₀ :: _ =>
    let headers := r₀.map (fun p => p.1)
    tableChunk pfx headers rows :: headers.map (colChunk pfx rows)

/-- A row of the `graph_data` table (`source`, `table_data` JSONB). -/
structure GraphEntry where
  source : Str
  table_data : List RowRec
  deriving DecidableEq

/-- The database state touched by ingestion: both tables in insertion order,
plus the generators for fresh ids and `created_at` defaults. -/
structure Db where
  chunks : List Chunk
  graphs : List GraphEntry
  nextId : Nat
  now : Nat
  deriving DecidableEq

/-- `RagService.insertChunk` (rag.service.ts:177-184): a single INSERT into
`dashboard_chunks`; id and `created_at` come from the column defaults. -/
def insertChunkDb (db : Db) (src content : Str) : Db :=
  { db with
    chunks := db.chunks ++ [⟨db.nextId, src, content, db.now⟩]
    nextId := db.nextId + 1
    now := db.now + 1 }

/-- `RagService.ingestRows` as a state transformer: inserts its chunk
contents in order and counts them. -/
def ingestRowsDb (db : Db) (src : Str) (rows : List RowRec) (pfx : Option Str) :
    Db × Nat :=
  (ingestRowsContents rows pfx).foldl
    (fun acc content => (insertChunkDb acc.1 src content, acc.2 + 1)) (db, 0)

/-- `RagService.ingestGraphData` (rag.service.ts:256-268): nothing for empty
input, otherwise one INSERT of the whole table into `graph_data`. -/
def ingestGraphDataDb (db : Db) (src : Str) (rows : List RowRec) : Db × Nat :=
  if rows.length = 0 then (db, 0)
  else ({ db with graphs := db.graphs ++ [⟨src, rows⟩] }, 1)

/-- `RagService.ingestText` (rag.service.ts:43-50): chunk the text with a
budget of 120 tokens and insert every chunk. -/
def ingestTextDb (db : Db) (src content : Str) : Db × Nat :=
  (chunkText content 120).foldl
    (fun acc chunk => (insertChunkDb acc.1 src chunk, acc.2 + 1)) (db, 0)

/-- An uploaded file after the external parsers ran: `csv-parse` for CSV,
`XLSX.sheet_to_json` per sheet for spreadsheets, utf-8 decoding otherwise. -/
inductive IngestedFile where
  | csv (records : List RowRec)
  | xlsx (sheets : List (Str × List RowRec))
  | text (content : Str)

/-- `RagService.ingestFile` (rag.service.ts:53-93).  The
`db.deleteBySource(source)` call is commented out in the source, so no
branch ever deletes or updates existing rows. -/
def ingestFileDb (db : Db) (src : Str) : IngestedFile → Db × Nat × Nat
  | .csv records =>
    let r1 := ingestRowsDb db src records none
    let r2 := ingestGraphDataDb r1.1 src records
    (r2.1, r1.2, r2.2)
  | .xlsx sheets =>
    sheets.foldl
      (fun acc sheet =>
        let r1 := ingestRowsDb acc.1 src sheet.2 (some (("Sheet: ").toList ++ sheet.1))
        let r2 := ingestGraphDataDb r1.1 src sheet.2
        (r2.1, acc.2.1 + r1.2, acc.2.2 + r2.2))
      (db, 0, 0)
  | .text content =>
    let r := ingestTextDb db src content
    (r.1, r.2, 0)

/-- Concatenation of string pieces with single spaces, for stating that
chunking preserves the sentence sequence up to whitespace normalisation. -/
def joinSp : List Str → Str
  | [] => []
  | [x] => x
  | x :: y :: l => x ++ ' ' :: joinSp (y :: l)

/-- Gluing two whitespace-normalised fragments with a single space. -/
def glue (a b : Str) : Str :=
  if a = [] then b else if b = [] then a else a ++ ' ' :: b

/-- A whitespace-normalised, non-empty string piece — the shape of every
sentence produced by `splitIntoSentences`. -/
def SentOk (s : Str) : Prop := trim s = s ∧ s ≠ []

/-- The key list of a `RowMap`, in insertion order. -/
def keysOf (m : RowMap) : List Nat := m.map (fun p => p.1)

/-- Well-formedness of the modelled JS `Map`: unique keys, and every stored
row is keyed by its own id. -/
def WFMap (m : RowMap) : Prop :=
  (keysOf m).Nodup ∧ ∀ p ∈ m, p.2.id = p.1

/-- One database state extends another by pure insertion: both tables of the
old state are unchanged initial segments of the new one. -/
def DbExt (db db' : Db) : Prop :=
  ∃ (nc : List Chunk) (ng : List GraphEntry),
    db'.chunks = db.chunks ++ nc ∧ db'.graphs = db.graphs ++ ng

/- Concrete inputs used by witnesses and counterexamples. -/

/-- A store holding a single chunk whose source is `"b"`. -/
def storeOne : List Chunk := [⟨1, ("b").toList, ("hello").toList, 0⟩]

/-- A store of six chunks (more rows than a small `k`). -/
def storeSix : List Chunk :=
  [⟨1, ("s").toList, ("x").toList, 1⟩, ⟨2, ("s").toList, ("x").toList, 2⟩,
   ⟨3, ("s").toList, ("x").toList, 3⟩, ⟨4, ("s").toList, ("x").toList, 4⟩,
   ⟨5, ("s").toList, ("x").toList, 5⟩, ⟨6, ("s").toList, ("x").toList, 6⟩]

/-- A store of two chunks with distinct creation times. -/
def storeTwo : List Chunk :=
  [⟨1, ("s").toList, ("alpha").toList, 1⟩, ⟨2, ("s").toList, ("beta").toList, 2⟩]

/-- A question every token of which is a stopword. -/
def qWhat : Str := ("what is the data").toList

/-- Concrete semantic result rows (integer score, so that the kernel can
evaluate comparisons). -/
def semW : List QRow := [⟨1, ("a").toList, 1⟩]

/-- Concrete keyword result rows: one id colliding with `semW`, one new. -/
def kwW : List KRow := [⟨1, ("a").toList⟩, ⟨2, ("b").toList⟩]

/-- A tabular row providing both fields `a` and `b`. -/
def rowAB : RowRec := [(("a").toList, ("1").toList), (("b").toList, ("2").toList)]

/-- A tabular row lacking the field `b`. -/
def rowA : RowRec := [(("a").toList, ("3").toList)]

/- ## Lemmas about whitespace trimming -/

theorem dropWhile_idem {α : Type} (p : α → Bool) (l : List α) :
    List.dropWhile p (List.dropWhile p l) = List.dropWhile p l := by
  induction l with
  | nil => rfl
  | cons c cs ih =>
    cases hc : p c
    · simp [List.dropWhile_cons, hc]
    · simp [List.dropWhile_cons, hc, ih]

theorem dropWhile_head_false {α : Type} {p : α → Bool} {c : α} {cs : List α}
    (h : List.dropWhile p (c :: cs) = c :: cs) : p c = false := by
  cases hc : p c
  · rfl
  · exfalso
    rw [List.dropWhile_cons, if_pos hc] at h
    have hsub := List.dropWhile_sublist (l := cs) p
    rw [h] at hsub
    have hlen := hsub.length_le
    simp only [List.length_cons] at hlen
    omega

theorem dropWhile_cons_false {α : Type} {p : α → Bool} {c : α} (hc : p c = false)
    (cs : List α) : List.dropWhile p (c :: cs) = c :: cs := by
  simp [List.dropWhile_cons, hc]

theorem dropWhile_append_last {α : Type} {p : α → Bool} {c : α} (hc : p c = false)
    (l : List α) : List.dropWhile p (l ++ [c]) = List.dropWhile p l ++ [c] := by
  induction l with
  | nil => simpa using dropWhile_cons_false hc []
  | cons x xs ih =>
    cases hx : p x
    · simp [List.dropWhile_cons, hx]
    · simp [List.dropWhile_cons, hx, ih]

theorem trim_nil : trim [] = [] := rfl

theorem trimL_sublist (s : Str) : (trimL s).Sublist s := List.dropWhile_sublist isWs

theorem trimR_sublist (s : Str) : (trimR s).Sublist s := by
  have h := (List.dropWhile_sublist (l := s.reverse) isWs).reverse
  simpa [trimR] using h

theorem of_trim_eq_self {s : Str} (h : trim s = s) : trimL s = s ∧ trimR s = s := by
  have h1 : (trimL s).Sublist s := trimL_sublist s
  have h2 : (trim s).Sublist (trimL s) := trimR_sublist (trimL s)
  have hlen : s.length ≤ (trimL s).length := by
    have hx := h2.length_le
    rw [h] at hx
    exact hx
  have hL : trimL s = s := h1.eq_of_length (Nat.le_antisymm h1.length_le hlen)
  have hR : trimR s = trim s := by rw [trim, hL]
  exact ⟨hL, hR.trans h⟩

theorem trimL_idem (s : Str) : trimL (trimL s) = trimL s := dropWhile_idem isWs s

theorem trimR_idem (s : Str) : trimR (trimR s) = trimR s := by
  simp [trimR, List.reverse_reverse, dropWhile_idem]

theorem trimR_cons_false {c : Char} {cs : Str} (hc : isWs c = false) :
    trimR (c :: cs) = c :: trimR cs := by
  simp [trimR, List.reverse_cons, dropWhile_append_last hc, List.reverse_append]

theorem trimL_of_trimR {s : Str} (h : trimL s = s) : trimL (trimR s) = trimR s := by
  cases s with
  | nil => rfl
  | cons c cs =>
    have h' : List.dropWhile isWs (c :: cs) = c :: cs := h
    have hc : isWs c = false := dropWhile_head_false h'
    rw [trimR_cons_false hc]
    exact dropWhile_cons_false hc _

theorem trim_idem (s : Str) : trim (trim s) = trim s := by
  have hL : trimL (trimL s) = trimL s := trimL_idem s
  rw [trim, trim, trimL_of_trimR hL, trimR_idem]

theorem trim_append_space {a b : Str} (ha : trim a = a) (ha0 : a ≠ [])
    (hb : trim b = b) (hb0 : b ≠ []) : trim (a ++ ' ' :: b) = a ++ ' ' :: b := by
  obtain ⟨haL, haR⟩ := of_trim_eq_self ha
  obtain ⟨hbL, hbR⟩ := of_trim_eq_self hb
  obtain ⟨c, cs, rfl⟩ : ∃ c cs, a = c :: cs := by
    cases a with
    | nil => exact absurd rfl ha0
    | cons c cs => exact ⟨c, cs, rfl⟩
  have haL' : List.dropWhile isWs (c :: cs) = c :: cs := haL
  have hc : isWs c = false := dropWhile_head_false haL'
  have hbrev : List.dropWhile isWs b.reverse = b.reverse := by
    have hx := congrArg List.reverse hbR
    simpa [trimR] using hx
  obtain ⟨d, ds, hdds⟩ : ∃ d ds, b.reverse = d :: ds := by
    cases hh : b.reverse with
    | nil => exact absurd (by simpa using congrArg List.reverse hh) hb0
    | cons d ds => exact ⟨d, ds, rfl⟩
  have hd : isWs d = false := by
    rw [hdds] at hbrev
    exact dropWhile_head_false hbrev
  have hLfull : trimL ((c :: cs) ++ ' ' :: b) = (c :: cs) ++ ' ' :: b := by
    show List.dropWhile isWs (c :: (cs ++ ' ' :: b)) = c :: (cs ++ ' ' :: b)
    exact dropWhile_cons_false hc _
  have hrev : ((c :: cs) ++ ' ' :: b).reverse = d :: (ds ++ ' ' :: (c :: cs).reverse) := by
    simp [List.reverse_append, hdds, List.append_assoc]
  have hRfull : trimR ((c :: cs) ++ ' ' :: b) = (c :: cs) ++ ' ' :: b := by
    rw [trimR, hrev, dropWhile_cons_false hd, ← hrev, List.reverse_reverse]
  rw [trim, hLfull, hRfull]

/- ## Lemmas about joinSp and glue -/

theorem joinSp_ne_nil {L : List Str} (hL : L ≠ []) (h : ∀ s ∈ L, s ≠ []) :
    joinSp L ≠ [] := by
  match L with
  | [] => exact absurd rfl hL
  | [x] => simpa [joinSp] using h x (by simp)
  | x :: y :: l => simp [joinSp]

theorem joinSp_cons_glue {s : Str} {rest : List Str} (hs : s ≠ [])
    (hrest : ∀ r ∈ rest, r ≠ []) : joinSp (s :: rest) = glue s (joinSp rest) := by
  cases rest with
  | nil => simp [joinSp, glue, hs]
  | cons r l =>
    have hj : joinSp (r :: l) ≠ [] := joinSp_ne_nil (by simp) hrest
    simp [joinSp, glue, hs, hj]

/- ## Lemmas about the segmenter -/

theorem sentences_ok (text : Str) : ∀ s ∈ splitIntoSentences text, SentOk s := by
  intro s hs
  unfold splitIntoSentences at hs
  rw [List.mem_filter] at hs
  obtain ⟨hmem, hlen⟩ := hs
  rw [List.mem_map] at hmem
  obtain ⟨s₀, -, rfl⟩ := hmem
  refine ⟨trim_idem s₀, ?_⟩
  have hpos : 0 < (trim s₀).length := by simpa using hlen
  exact List.length_pos.mp hpos

theorem chunkGo_all (target : Nat) :
    ∀ (sents : List Str) (cur : Str), (cur = [] ∨ SentOk cur) →
      (∀ s ∈ sents, SentOk s) → ∀ c ∈ chunkGo target cur sents, SentOk c := by
  intro sents
  induction sents with
  | nil =>
    intro cur hcur hs c hc
    simp only [chunkGo] at hc
    by_cases hlen : 0 < (trim cur).length
    · rw [if_pos hlen] at hc
      rw [List.mem_singleton] at hc
      subst hc
      exact ⟨trim_idem cur, List.length_pos.mp hlen⟩
    · rw [if_neg hlen] at hc
      exact absurd hc (List.not_mem_nil c)
  | cons s rest ih =>
    intro cur hcur hs c hc
    have hsOk : SentOk s := hs s (by simp)
    have hrest : ∀ x ∈ rest, SentOk x := fun x hx => hs x (by simp [hx])
    simp only [chunkGo] at hc
    by_cases hcond : target < (splitWs (cur ++ ' ' :: s)).length
    · rw [if_pos hcond, List.mem_append] at hc
      cases hc with
      | inl h1 =>
        by_cases hlen : 0 < (trim cur).length
        · rw [if_pos hlen] at h1
          rw [List.mem_singleton] at h1
          subst h1
          exact ⟨trim_idem cur, List.length_pos.mp hlen⟩
        · rw [if_neg hlen] at h1
          exact absurd h1 (List.not_mem_nil c)
      | inr h2 => exact ih s (Or.inr hsOk) hrest c h2
    · rw [if_neg hcond] at hc
      refine ih _ ?_ hrest c hc
      by_cases hnil : cur.length = 0
      · rw [if_pos hnil]
        exact Or.inr hsOk
      · rw [if_neg hnil]
        cases hcur with
        | inl h => exact absurd (by rw [h]; rfl) hnil
        | inr h =>
          exact Or.inr ⟨trim_append_space h.1 h.2 hsOk.1 hsOk.2, by simp⟩

theorem chunkGo_ne_nil (target : Nat) :
    ∀ (sents : List Str) (cur : Str), SentOk cur → (∀ s ∈ sents, SentOk s) →
      chunkGo target cur sents ≠ [] := by
  intro sents
  induction sents with
  | nil =>
    intro cur hcur hs
    simp only [chunkGo]
    rw [if_pos (by rw [hcur.1]; exact List.length_pos.mpr hcur.2)]
    simp
  | cons s rest ih =>
    intro cur hcur hs
    have hsOk : SentOk s := hs s (by simp)
    have hrest : ∀ x ∈ rest, SentOk x := fun x hx => hs x (by simp [hx])
    simp only [chunkGo]
    by_cases hcond : target < (splitWs (cur ++ ' ' :: s)).length
    · rw [if_pos hcond, if_pos (by rw [hcur.1]; exact List.length_pos.mpr hcur.2)]
      simp
    · rw [if_neg hcond]
      by_cases hnil : cur.length = 0
      · rw [if_pos hnil]
        exact ih s hsOk hrest
      · rw [if_neg hnil]
        exact ih _ ⟨trim_append_space hcur.1 hcur.2 hsOk.1 hsOk.2, by simp⟩ hrest

theorem chunkGo_joinSp (target : Nat) :
    ∀ (sents : List Str) (cur : Str), (cur = [] ∨ SentOk cur) →
      (∀ s ∈ sents, SentOk s) →
      joinSp (chunkGo target cur sents) = glue cur (joinSp sents) := by
  intro sents
  induction sents with
  | nil =>
    intro cur hcur hs
    simp only [chunkGo]
    cases hcur with
    | inl h =>
      subst h
      rw [if_neg (by simp [trim_nil])]
      simp [joinSp, glue]
    | inr h =>
      rw [if_pos (by rw [h.1]; exact List.length_pos.mpr h.2), h.1]
      simp [joinSp, glue, h.2]
  | cons s rest ih =>
    intro cur hcur hs
    have hsOk : SentOk s := hs s (by simp)
    have hrest : ∀ x ∈ rest, SentOk x := fun x hx => hs x (by simp [hx])
    have hrest0 : ∀ x ∈ rest, x ≠ [] := fun x hx => (hrest x hx).2
    have hglue : joinSp (s :: rest) = glue s (joinSp rest) :=
      joinSp_cons_glue hsOk.2 hrest0
    simp only [chunkGo]
    by_cases hcond : target < (splitWs (cur ++ ' ' :: s)).length
    · rw [if_pos hcond]
      cases hcur with
      | inl h =>
        subst h
        rw [if_neg (by simp [trim_nil])]
        simp only [List.nil_append]
        rw [ih s (Or.inr hsOk) hrest, hglue]
        simp [glue]
      | inr h =>
        rw [if_pos (by rw [h.1]; exact List.length_pos.mpr h.2), h.1]
        have hrec_ok : ∀ c ∈ chunkGo target s rest, SentOk c :=
          chunkGo_all target rest s (Or.inr hsOk) hrest
        have hrec0 : ∀ c ∈ chunkGo target s rest, c ≠ [] := fun c hc => (hrec_ok c hc).2
        rw [List.singleton_append, joinSp_cons_glue h.2 hrec0,
          ih s (Or.inr hsOk) hrest, hglue]
    · rw [if_neg hcond]
      by_cases hnil : cur.length = 0
      · rw [if_pos hnil]
        have hcurnil : cur = [] := List.length_eq_zero.mp hnil
        subst hcurnil
        rw [ih s (Or.inr hsOk) hrest, hglue]
        simp [glue]
      · rw [if_neg hnil]
        cases hcur with
        | inl h => exact absurd (by rw [h]; rfl) hnil
        | inr h =>
          have hcat : SentOk (cur ++ ' ' :: s) :=
            ⟨trim_append_space h.1 h.2 hsOk.1 hsOk.2, by simp⟩
          rw [ih _ (Or.inr hcat) hrest, hglue]
          by_cases hjr : joinSp rest = []
          · rw [hjr]
            simp [glue, h.2, hsOk.2, hcat.2]
          · simp [glue, h.2, hsOk.2, hcat.2, hjr]

/- ## Lemmas about the stable descending sort -/

theorem insertBy_perm {α : Type} (lt : α → α → Bool) (a : α) (l : List α) :
    (insertBy lt a l).Perm (a :: l) := by
  induction l with
  | nil => exact List.Perm.refl _
  | cons b bs ih =>
    by_cases h : lt b a = true
    · simp only [insertBy, if_pos h]
      exact (ih.cons b).trans (List.Perm.swap a b bs)
    · simp only [insertBy, if_neg h]
      exact List.Perm.refl _

theorem sortBy_perm {α : Type} (lt : α → α → Bool) (l : List α) :
    (sortBy lt l).Perm l := by
  induction l with
  | nil => exact List.Perm.refl _
  | cons x xs ih =>
    simp only [sortBy]
    exact (insertBy_perm lt x (sortBy lt xs)).trans (ih.cons x)

theorem insertBy_pairwise {α β : Type} [LinearOrder β] (κ : α → β) (a : α)
    (l : List α) (h : l.Pairwise (fun x y => κ y ≤ κ x)) :
    (insertBy (keyLt κ) a l).Pairwise (fun x y => κ y ≤ κ x) := by
  induction l with
  | nil => simp [insertBy]
  | cons b bs ih =>
    rw [List.pairwise_cons] at h
    obtain ⟨hb, hbs⟩ := h
    by_cases hlt : keyLt κ b a = true
    · have hab : κ a < κ b := by simpa [keyLt] using hlt
      simp only [insertBy, if_pos hlt]
      rw [List.pairwise_cons]
      refine ⟨?_, ih hbs⟩
      intro x hx
      rw [(insertBy_perm (keyLt κ) a bs).mem_iff] at hx
      rcases List.mem_cons.mp hx with rfl | hx
      · exact hab.le
      · exact hb x hx
    · have hab : ¬ (κ a < κ b) := by simpa [keyLt] using hlt
      have hba : κ b ≤ κ a := not_lt.mp hab
      simp only [insertBy, if_neg hlt]
      rw [List.pairwise_cons]
      constructor
      · intro x hx
        rcases List.mem_cons.mp hx with rfl | hx
        · exact hba
        · exact le_trans (hb x hx) hba
      · rw [List.pairwise_cons]
        exact ⟨hb, hbs⟩

theorem sortByKeyDesc_pairwise {α β : Type} [LinearOrder β] (κ : α → β)
    (l : List α) : (sortByKeyDesc κ l).Pairwise (fun x y => κ y ≤ κ x) := by
  unfold sortByKeyDesc
  induction l with
  | nil => simp [sortBy]
  | cons x xs ih =>
    simp only [sortBy]
    exact insertBy_pairwise κ x _ ih

theorem sortByKeyDesc_perm {α β : Type} [LinearOrder β] (κ : α → β) (l : List α) :
    (sortByKeyDesc κ l).Perm l := sortBy_perm _ l

theorem sortByKeyDesc_length {α β : Type} [LinearOrder β] (κ : α → β) (l : List α) :
    (sortByKeyDesc κ l).length = l.length := (sortByKeyDesc_perm κ l).length_eq

/- ## Lemmas about the merge map -/

theorem mapHas_iff {m : RowMap} {k : Nat} : mapHas m k = true ↔ k ∈ keysOf m := by
  simp [mapHas, keysOf, List.any_eq_true, List.mem_map, beq_iff_eq]

theorem mapHas_append {m₁ m₂ : RowMap} {k : Nat} :
    mapHas (m₁ ++ m₂) k = (mapHas m₁ k || mapHas m₂ k) := List.any_append

theorem keysOf_mapSet (m : RowMap) (k : Nat) (v : QRow) :
    keysOf (mapSet m k v) =
      if mapHas m k = true then keysOf m else keysOf m ++ [k] := by
  by_cases h : mapHas m k = true
  · rw [if_pos h]
    simp only [mapSet, if_pos h, keysOf, List.map_map]
    apply List.map_congr_left
    intro p hp
    by_cases hp1 : p.1 = k
    · simp [hp1]
    · simp [hp1]
  · rw [if_neg h]
    simp [mapSet, h, keysOf]

theorem WFMap_mapSet {m : RowMap} {k : Nat} {v : QRow} (h : WFMap m)
    (hv : v.id = k) : WFMap (mapSet m k v) := by
  constructor
  · rw [keysOf_mapSet]
    by_cases hk : mapHas m k = true
    · rw [if_pos hk]
      exact h.1
    · rw [if_neg hk]
      have hnk : k ∉ keysOf m := fun hmem => hk (mapHas_iff.mpr hmem)
      simp [List.nodup_append, h.1, List.Disjoint]
      intro a ha hak
      exact hnk (hak ▸ ha)
  · intro p hp
    by_cases hk : mapHas m k = true
    · simp only [mapSet, if_pos hk] at hp
      rw [List.mem_map] at hp
      obtain ⟨q, hq, rfl⟩ := hp
      by_cases hq1 : q.1 = k
      · simp [hq1, hv]
      · simp [hq1]
        exact h.2 q hq
    · simp only [mapSet, if_neg hk] at hp
      rw [List.mem_append] at hp
      rcases hp with hp | hp
      · exact h.2 p hp
      · rw [List.mem_singleton] at hp
        subst hp
        exact hv

theorem WFMap_nil : WFMap [] := by
  constructor
  · exact List.nodup_nil
  · intro p hp
    exact absurd hp (List.not_mem_nil p)

theorem semFold_WF (sem : List QRow) :
    ∀ m : RowMap, WFMap m →
      WFMap (sem.foldl (fun m row => mapSet m row.id row) m) := by
  induction sem with
  | nil => intro m hm; exact hm
  | cons r rest ih =>
    intro m hm
    exact ih _ (WFMap_mapSet hm rfl)

theorem kwFold_WF (kw : List KRow) :
    ∀ m : RowMap, WFMap m →
      WFMap (kw.foldl
        (fun m row =>
          if mapHas m row.id then m else mapSet m row.id ⟨row.id, row.content, 0.75⟩)
        m) := by
  induction kw with
  | nil => intro m hm; exact hm
  | cons r rest ih =>
    intro m hm
    by_cases h : mapHas m r.id = true
    · simp only [List.foldl_cons, if_pos h]
      exact ih _ hm
    · simp only [List.foldl_cons, if_neg h]
      exact ih _ (WFMap_mapSet hm rfl)

theorem combineRows_WF (sem : List QRow) (kw : List KRow) :
    WFMap (combineRows sem kw) :=
  kwFold_WF kw _ (semFold_WF sem [] WFMap_nil)

theorem mapValues_ids {m : RowMap} (h : WFMap m) :
    (mapValues m).map QRow.id = keysOf m := by
  simp only [mapValues, keysOf, List.map_map]
  exact List.map_congr_left h.2

theorem mapHas_eq_false {m : RowMap} {k : Nat} (h : k ∉ keysOf m) :
    mapHas m k = false := by
  cases hm : mapHas m k
  · rfl
  · exact absurd (mapHas_iff.mp hm) h

theorem mapSet_append_of_not_has {m : RowMap} {k : Nat} {v : QRow}
    (h : mapHas m k = false) : mapSet m k v = m ++ [(k, v)] := by
  simp [mapSet, h]

theorem keysOf_append (m₁ m₂ : RowMap) :
    keysOf (m₁ ++ m₂) = keysOf m₁ ++ keysOf m₂ := by
  simp [keysOf]

theorem semFold_eq (sem : List QRow) :
    ∀ m : RowMap, (∀ r ∈ sem, r.id ∉ keysOf m) → (sem.map QRow.id).Nodup →
      sem.foldl (fun m row => mapSet m row.id row) m =
        m ++ sem.map (fun r => (r.id, r)) := by
  induction sem with
  | nil =>
    intro m _ _
    simp
  | cons r rest ih =>
    intro m hdis hnd
    have hnd' : r.id ∉ rest.map QRow.id ∧ (rest.map QRow.id).Nodup := by
      simpa [List.nodup_cons] using hnd
    have hdis' : ∀ x ∈ rest, x.id ∉ keysOf (m ++ [(r.id, r)]) := by
      intro x hx
      rw [keysOf_append]
      intro hmem
      rcases List.mem_append.mp hmem with hmem | hmem
      · exact hdis x (by simp [hx]) hmem
      · have hx1 : x.id = r.id := by simpa [keysOf] using hmem
        exact hnd'.1 (hx1 ▸ List.mem_map_of_mem QRow.id hx)
    simp only [List.foldl_cons]
    rw [mapSet_append_of_not_has (mapHas_eq_false (hdis r (by simp)))]
    rw [ih (m ++ [(r.id, r)]) hdis' hnd'.2]
    simp

theorem kwFold_extra (kw : List KRow) :
    ∀ m : RowMap, ∃ extra,
      kw.foldl
        (fun m row =>
          if mapHas m row.id then m else mapSet m row.id ⟨row.id, row.content, 0.75⟩)
        m = m ++ extra ∧
      ∀ p ∈ extra, mapHas m p.1 = false ∧
        ∃ kr ∈ kw, p = (kr.id, ⟨kr.id, kr.content, 0.75⟩) := by
  induction kw with
  | nil =>
    intro m
    exact ⟨[], by simp, by simp⟩
  | cons row rest ih =>
    intro m
    simp only [List.foldl_cons]
    by_cases h : mapHas m row.id = true
    · rw [if_pos h]
      obtain ⟨extra, heq, hprop⟩ := ih m
      refine ⟨extra, heq, ?_⟩
      intro p hp
      obtain ⟨h1, kr, hkr, h2⟩ := hprop p hp
      exact ⟨h1, kr, by simp [hkr], h2⟩
    · rw [if_neg h]
      have hfalse : mapHas m row.id = false := by
        cases hm : mapHas m row.id
        · rfl
        · exact absurd hm h
      rw [mapSet_append_of_not_has hfalse]
      obtain ⟨extra, heq, hprop⟩ := ih (m ++ [(row.id, ⟨row.id, row.content, 0.75⟩)])
      refine ⟨(row.id, ⟨row.id, row.content, 0.75⟩) :: extra, ?_, ?_⟩
      · rw [heq]
        simp
      · intro p hp
        rcases List.mem_cons.mp hp with rfl | hp
        · exact ⟨hfalse, row, by simp, rfl⟩
        · obtain ⟨h1, kr, hkr, h2⟩ := hprop p hp
          refine ⟨?_, kr, by simp [hkr], h2⟩
          cases hq : mapHas m p.1 with
          | false => rfl
          | true =>
            rw [mapHas_append, hq] at h1
            simp at h1

/- ## Lemmas about database extension by ingestion -/

theorem DbExt_refl (db : Db) : DbExt db db := ⟨[], [], by simp, by simp⟩

theorem DbExt_trans {a b c : Db} (h1 : DbExt a b) (h2 : DbExt b c) : DbExt a c := by
  obtain ⟨nc1, ng1, hc1, hg1⟩ := h1
  obtain ⟨nc2, ng2, hc2, hg2⟩ := h2
  exact ⟨nc1 ++ nc2, ng1 ++ ng2, by rw [hc2, hc1, List.append_assoc],
    by rw [hg2, hg1, List.append_assoc]⟩

theorem DbExt_insertChunk (db : Db) (src content : Str) :
    DbExt db (insertChunkDb db src content) :=
  ⟨[⟨db.nextId, src, content, db.now⟩], [], by simp [insertChunkDb],
    by simp [insertChunkDb]⟩

theorem foldl_insert_ext (src : Str) (l : List Str) :
    ∀ st : Db × Nat, DbExt st.1
      ((l.foldl (fun acc content => (insertChunkDb acc.1 src content, acc.2 + 1)) st).1) := by
  induction l with
  | nil =>
    intro st
    exact DbExt_refl st.1
  | cons c cs ih =>
    intro st
    simp only [List.foldl_cons]
    exact DbExt_trans (DbExt_insertChunk st.1 src c)
      (ih (insertChunkDb st.1 src c, st.2 + 1))

theorem DbExt_ingestRows (db : Db) (src : Str) (rows : List RowRec)
    (pfx : Option Str) : DbExt db (ingestRowsDb db src rows pfx).1 :=
  foldl_insert_ext src _ (db, 0)

theorem DbExt_ingestText (db : Db) (src content : Str) :
    DbExt db (ingestTextDb db src content).1 :=
  foldl_insert_ext src _ (db, 0)

theorem DbExt_ingestGraphData (db : Db) (src : Str) (rows : List RowRec) :
    DbExt db (ingestGraphDataDb db src rows).1 := by
  by_cases h : rows.length = 0
  · simp only [ingestGraphDataDb, if_pos h]
    exact DbExt_refl db
  · simp only [ingestGraphDataDb, if_neg h]
    exact ⟨[], [⟨src, rows⟩], by simp, by simp⟩

theorem xlsxFold_ext (src : Str) (sheets : List (Str × List RowRec)) :
    ∀ st : Db × Nat × Nat, DbExt st.1
      ((sheets.foldl
        (fun acc sheet =>
          let r1 := ingestRowsDb acc.1 src sheet.2 (some (("Sheet: ").toList ++ sheet.1))
          let r2 := ingestGraphDataDb r1.1 src sheet.2
          (r2.1, acc.2.1 + r1.2, acc.2.2 + r2.2)) st).1) := by
  induction sheets with
  | nil =>
    intro st
    exact DbExt_refl st.1
  | cons sh rest ih =>
    intro st
    simp only [List.foldl_cons]
    have h1 := DbExt_ingestRows st.1 src sh.2 (some (("Sheet: ").toList ++ sh.1))
    have h2 := DbExt_ingestGraphData
      (ingestRowsDb st.1 src sh.2 (some (("Sheet: ").toList ++ sh.1))).1 src sh.2
    exact DbExt_trans (DbExt_trans h1 h2) (ih _)

/- ## Claim theorems -/

/-- C1: the spec claims that with a `sourceFilter` every returned chunk's
source equals the filter.  The code drops the filter: `RagController.query`
passes `source` as a third argument, but `RagService.query` declares only
`(question, k)` and neither SQL statement filters by source.  On a store
whose only chunk has source `"b"`, a query with `sourceFilter = "a"` still
returns that chunk (and the returned rows carry no source at all). -/
theorem query_ignores_source_filter_code_bug :
    controllerQuery (fun _ => (1:ℚ)) (("hello").toList) 5 (some (("a").toList)) storeOne =
      [⟨1, ("hello").toList, 1⟩] ∧
    (∀ c ∈ storeOne, c.source ≠ ("a").toList) := by
  constructor
  · decide
  · decide

/-- C2 (counterexample): the claim that the semantic search step requests and
returns up to `k` results is false — the SQL is run with the literal LIMIT 5,
so with `k = 2` and a six-chunk store the semantic step returns 5 rows. -/
theorem semantic_limit_not_k_cex :
    ¬ ∀ (k : Nat) (scoreOf : Chunk → ℚ) (store : List Chunk),
        (semanticSearch scoreOf store).length ≤ k := by
  intro h
  have h2 := h 2 (fun _ => 0) storeSix
  have h5 : (semanticSearch (fun _ => (0:ℚ)) storeSix).length = 5 := by decide
  rw [h5] at h2
  omega

/-- C2 (amended): the semantic search step always requests 5 rows (the LIMIT
parameter is the literal 5, independent of `k`) and returns exactly
`min 5 (store size)` rows. -/
theorem semantic_limit_five (scoreOf : Chunk → ℚ) (store : List Chunk) (k : Nat) :
    (semanticSearch scoreOf store).length = min 5 store.length := by
  unfold semanticSearch
  rw [List.length_take, sortByKeyDesc_length, List.length_map]

/-- C3: in the merged map of `query`, every semantic row is kept; any merged
row whose id occurs among the semantic results is that semantic row (with its
semantic score), and any merged row whose id does not occur among the
semantic results is a lexical fallback row carrying the fixed score 0.75. -/
theorem merge_semantic_wins_lexical_medium (semanticRows : List QRow)
    (keywordRows : List KRow) (h : (semanticRows.map QRow.id).Nodup) :
    (∀ r ∈ semanticRows, r ∈ mapValues (combineRows semanticRows keywordRows)) ∧
    ∀ r ∈ mapValues (combineRows semanticRows keywordRows),
      (r.id ∈ semanticRows.map QRow.id → r ∈ semanticRows) ∧
      (r.id ∉ semanticRows.map QRow.id →
        r.score = 0.75 ∧ ∃ kr ∈ keywordRows, r.id = kr.id ∧ r.content = kr.content) := by
  have hsem : semanticRows.foldl (fun m row => mapSet m row.id row) [] =
      semanticRows.map (fun r => (r.id, r)) := by
    have hx := semFold_eq semanticRows [] (by simp [keysOf]) h
    simpa using hx
  obtain ⟨extra, heq, hprop⟩ :=
    kwFold_extra keywordRows (semanticRows.map (fun r => (r.id, r)))
  have hcomb : combineRows semanticRows keywordRows =
      semanticRows.map (fun r => (r.id, r)) ++ extra := by
    show keywordRows.foldl
        (fun m row =>
          if mapHas m row.id then m else mapSet m row.id ⟨row.id, row.content, 0.75⟩)
        (semanticRows.foldl (fun m row => mapSet m row.id row) []) =
      semanticRows.map (fun r => (r.id, r)) ++ extra
    rw [hsem]
    exact heq
  have hvals : mapValues (combineRows semanticRows keywordRows) =
      semanticRows ++ mapValues extra := by
    rw [hcomb]
    simp [mapValues, List.map_map, Function.comp_def]
  constructor
  · intro r hr
    rw [hvals]
    exact List.mem_append_left _ hr
  · intro r hr
    rw [hvals, List.mem_append] at hr
    rcases hr with hr | hr
    · constructor
      · intro _
        exact hr
      · intro hid
        exact absurd (List.mem_map_of_mem QRow.id hr) hid
    · rw [mapValues, List.mem_map] at hr
      obtain ⟨p, hp, rfl⟩ := hr
      obtain ⟨h1, kr, hkr, rfl⟩ := hprop p hp
      have hid : kr.id ∉ semanticRows.map QRow.id := by
        intro hmem
        have htrue : mapHas (semanticRows.map (fun r => (r.id, r))) kr.id = true := by
          rw [mapHas_iff]
          simpa [keysOf, List.map_map] using hmem
        exact Bool.noConfusion (htrue.symm.trans h1)
      constructor
      · intro hidmem
        exact absurd hidmem hid
      · intro _
        exact ⟨rfl, kr, hkr, rfl, rfl⟩

/-- C3 (witness): the theorem applied to a concrete semantic result and a
keyword result with one colliding id and one new id. -/
theorem merge_semantic_wins_lexical_medium_witness :
    (semW.map QRow.id).Nodup ∧
    ((∀ r ∈ semW, r ∈ mapValues (combineRows semW kwW)) ∧
      ∀ r ∈ mapValues (combineRows semW kwW),
        (r.id ∈ semW.map QRow.id → r ∈ semW) ∧
        (r.id ∉ semW.map QRow.id →
          r.score = 0.75 ∧ ∃ kr ∈ kwW, r.id = kr.id ∧ r.content = kr.content)) :=
  ⟨by decide, merge_semantic_wins_lexical_medium semW kwW (by decide)⟩

/-- C4: no chunk identifier appears twice in the final ranked output of the
hybrid retriever, for any question, any `k` and any store. -/
theorem query_ids_nodup (scoreOf : Chunk → ℚ) (question : Str) (k : Nat)
    (store : List Chunk) :
    ((queryContexts scoreOf question k store).map QRow.id).Nodup := by
  have hwf := combineRows_WF (semanticSearch scoreOf store)
    (keywordFallbackSearch question k store)
  have hvals : ((mapValues (combineRows (semanticSearch scoreOf store)
      (keywordFallbackSearch question k store))).map QRow.id).Nodup := by
    rw [mapValues_ids hwf]
    exact hwf.1
  have hperm := (sortByKeyDesc_perm QRow.score (mapValues (combineRows
      (semanticSearch scoreOf store) (keywordFallbackSearch question k store)))).map
    QRow.id
  have hsorted := hperm.symm.nodup hvals
  have hdef : queryContexts scoreOf question k store =
      (sortByKeyDesc QRow.score (mapValues (combineRows (semanticSearch scoreOf store)
        (keywordFallbackSearch question k store)))).take k := rfl
  rw [hdef, List.map_take]
  exact List.Nodup.sublist (List.take_sublist k _) hsorted

/-- C5: the final output of the hybrid retriever is sorted by non-increasing
score and contains at most `k` entries. -/
theorem query_sorted_bounded (scoreOf : Chunk → ℚ) (question : Str) (k : Nat)
    (store : List Chunk) :
    (queryContexts scoreOf question k store).Pairwise
      (fun a b => b.score ≤ a.score) ∧
    (queryContexts scoreOf question k store).length ≤ k := by
  have hdef : queryContexts scoreOf question k store =
      (sortByKeyDesc QRow.score (mapValues (combineRows (semanticSearch scoreOf store)
        (keywordFallbackSearch question k store)))).take k := rfl
  constructor
  · rw [hdef]
    exact List.Pairwise.sublist (List.take_sublist k _)
      (sortByKeyDesc_pairwise QRow.score _)
  · rw [hdef]
    exact List.length_take_le k _

/-- C6: for `n` rows whose first row has `m` fields, `ingestRows` produces
exactly `m + 1` chunks (whole table plus one per header of the first row) and
`ingestGraphData` one snapshot; both produce zero for empty input. -/
theorem tabular_deriver_counts (src : Str) (pfx : Option Str) (db : Db)
    (rows : List RowRec) :
    (ingestRowsContents rows pfx).length =
      (match rows with | [] => 0 | r₀ :: _ => r₀.length + 1) ∧
    (ingestGraphDataDb db src rows).2 =
      (match rows with | [] => 0 | _ :: _ => 1) := by
  cases rows with
  | nil =>
    constructor
    · rfl
    · rfl
  | cons r rest =>
    constructor
    · simp [ingestRowsContents, List.length_map]
    · simp [ingestGraphDataDb]

/-- C7: every chunk the segmenter produces is non-empty after trimming, and
joining the chunks with single spaces equals joining the sentence sequence of
the input with single spaces (the sentence sequence is reproduced up to
whitespace normalisation). -/
theorem chunker_nonempty_preserves_sentences (text : Str) (targetTokens : Nat) :
    (∀ c ∈ chunkText text targetTokens, 0 < (trim c).length) ∧
    joinSp (chunkText text targetTokens) = joinSp (splitIntoSentences text) := by
  constructor
  · intro c hc
    have h := chunkGo_all targetTokens (splitIntoSentences text) [] (Or.inl rfl)
      (sentences_ok text) c hc
    rw [h.1]
    exact List.length_pos.mpr h.2
  · have h := chunkGo_joinSp targetTokens (splitIntoSentences text) [] (Or.inl rfl)
      (sentences_ok text)
    unfold chunkText
    rw [h]
    simp [glue]

/-- C8: when the question tokenises to zero keywords the lexical fallback
does not fail: the WHERE clause is empty, and the result is the store in
descending `created_at` order truncated to `k` (hence bounded by `k`). -/
theorem keyword_fallback_zero_tokens (question : Str) (k : Nat)
    (store : List Chunk) (h : tokenizeQuestion question = []) :
    keywordFallbackSearch question k store =
      ((sortByKeyDesc Chunk.created_at store).take k).map
        (fun c => ⟨c.id, c.content⟩) ∧
    (keywordFallbackSearch question k store).length ≤ k := by
  have hts : keywordFallbackSearch question k store =
      ((sortByKeyDesc Chunk.created_at store).take k).map
        (fun c => ⟨c.id, c.content⟩) := by
    simp only [keywordFallbackSearch, h]
    simp [List.filter_true]
  constructor
  · exact hts
  · rw [hts]
    simp only [List.length_map]
    exact List.length_take_le k _

/-- C8 (witness): the question `"what is the data"` tokenises to zero
keywords, and on a two-chunk store with `k = 1` the fallback returns the most
recently created chunk. -/
theorem keyword_fallback_zero_tokens_witness :
    tokenizeQuestion qWhat = [] ∧
    (keywordFallbackSearch qWhat 1 storeTwo =
        ((sortByKeyDesc Chunk.created_at storeTwo).take 1).map
          (fun c => ⟨c.id, c.content⟩) ∧
      (keywordFallbackSearch qWhat 1 storeTwo).length ≤ 1) :=
  ⟨by decide, keyword_fallback_zero_tokens qWhat 1 storeTwo (by decide)⟩

/-- C9 (counterexample): there is no single missing-value default shared by
the whole-table chunk and the per-column chunks.  On a table whose second row
lacks field `b`, the whole-table chunk renders `b: undefined` while the
column chunk for `b` renders the empty string. -/
theorem missing_value_default_cex :
    ingestRowsContents [rowAB, rowA] none =
      [("a: 1; b: 2\na: 3; b: undefined").toList,
       ("Column: a\n1\n3").toList, ("Column: b\n2\n").toList] ∧
    ¬ ∃ d : Str, cellTable none = d ∧ cellCol none = d := by
  constructor
  · decide
  · rintro ⟨d, h1, h2⟩
    have h3 : cellTable none = cellCol none := h1.trans h2.symm
    exact absurd h3 (by decide)

/-- C9 (amended): a row lacking a named field renders that field as the
string `"undefined"` in the whole-table chunk (`String(undefined)`) and as
the empty string in the per-column chunks (`String(row[h] ?? '')`). -/
theorem missing_value_defaults (row : RowRec) (h : Str)
    (hm : getField row h = none) :
    cellTable (getField row h) = ("undefined").toList ∧ colCell row h = [] := by
  constructor
  · rw [hm]
    rfl
  · simp [colCell, hm, cellCol]

/-- C9 (witness): the amended theorem applied to the concrete row lacking
field `b`. -/
theorem missing_value_defaults_witness :
    getField rowA (("b").toList) = none ∧
    (cellTable (getField rowA (("b").toList)) = ("undefined").toList ∧
      colCell rowA (("b").toList) = []) :=
  ⟨by decide, missing_value_defaults rowA (("b").toList) (by decide)⟩

/-- C10: `ingestFile` only inserts — every chunk and every graph snapshot
present before the call (same source or not) is still present and unchanged
afterwards; both tables merely grow by a suffix of new rows. -/
theorem ingest_file_append_only (db : Db) (src : Str) (file : IngestedFile) :
    ∃ (newChunks : List Chunk) (newGraphs : List GraphEntry),
      (ingestFileDb db src file).1.chunks = db.chunks ++ newChunks ∧
      (ingestFileDb db src file).1.graphs = db.graphs ++ newGraphs ∧
      (∀ c ∈ db.chunks, c ∈ (ingestFileDb db src file).1.chunks) ∧
      (∀ g ∈ db.graphs, g ∈ (ingestFileDb db src file).1.graphs) := by
  have hext : DbExt db (ingestFileDb db src file).1 := by
    cases file with
    | csv records =>
      exact DbExt_trans (DbExt_ingestRows db src records none)
        (DbExt_ingestGraphData _ src records)
    | xlsx sheets => exact xlsxFold_ext src sheets (db, 0, 0)
    | text content => exact DbExt_ingestText db src content
  obtain ⟨nc, ng, hc, hg⟩ := hext
  refine ⟨nc, ng, hc, hg, ?_, ?_⟩
  · intro c hcm
    rw [hc]
    exact List.mem_append_left _ hcm
  · intro g hgm
    rw [hg]
    exact List.mem_append_left _ hgm
